import Mathlib

/-!
# Verification of the scientific-calculator expression pipeline

Shallow embedding of the expression-evaluation core of `src/script.js`:
the tokenizer (`tokenize`, line 100), the shunting-yard converter (the
body of `parseAndEvaluate`, lines 62–98), the postfix evaluator
(`evaluatePostfix`, lines 105–123), the operator/function dispatch
(`applyOperator`, lines 125–147) and `factorial` (lines 149–157).

Modelling decisions (global to this file):

* JavaScript numbers (IEEE-754 doubles) are modelled by `JsVal`: an exact
  rational for finite values plus the special values `+Infinity`,
  `-Infinity`, `NaN` and `undefined` (the value `Array.prototype.pop`
  returns on an empty array).  Rounding of finite arithmetic is idealised
  (exact rationals); every concrete value appearing in a theorem below is
  exactly representable as a double, where IEEE arithmetic is exact.
  The double `-0` is not distinguished from `0`.
* The host `Math` library is an external collaborator of the source file;
  its transcendental functions are parameters (`MathFns`).  The concrete
  instance `jsMath` used for closed evaluations is exact exactly where
  IEEE demands exact results on the inputs exercised here (integral
  exponents for `Math.pow`, perfect squares for `Math.sqrt`, the special
  NaN/Infinity cases); irrational results are not representable in this
  exact model and are conservatively mapped to `nan` — no theorem in this
  file depends on any such value.
* `isNaN(token)` on token strings is modelled by `isNumericLit`, which is
  faithful on the whole alphabet of strings the tokenizer can emit
  (numeric literals, the seven single-character symbols, the ten function
  names, `π`, `e`, `i`).  Every theorem feeds the converter only
  tokenizer outputs or token sequences over this alphabet.
-/

namespace SciCalc

/-- A JavaScript number value as used by the evaluator, plus `undefined`
(the result of popping an empty array). Finite doubles are idealised as
exact rationals. -/
inductive JsVal where
  | fin : ℚ → JsVal
  | posInf : JsVal
  | negInf : JsVal
  | nan : JsVal
  | undef : JsVal
deriving DecidableEq

/-- JS `isNaN(v)` for a `JsVal` (`isNaN(undefined)` is `true`, since
`Number(undefined)` is `NaN`). -/
def jsValIsNaN : JsVal → Bool
  | JsVal.nan => true
  | JsVal.undef => true
  | _ => false

/-- JS binary `+` on numbers (`undefined` coerces to `NaN`). -/
def addV : JsVal → JsVal → JsVal
  | JsVal.nan, _ => JsVal.nan
  | JsVal.undef, _ => JsVal.nan
  | _, JsVal.nan => JsVal.nan
  | _, JsVal.undef => JsVal.nan
  | JsVal.posInf, JsVal.negInf => JsVal.nan
  | JsVal.negInf, JsVal.posInf => JsVal.nan
  | JsVal.posInf, _ => JsVal.posInf
  | _, JsVal.posInf => JsVal.posInf
  | JsVal.negInf, _ => JsVal.negInf
  | _, JsVal.negInf => JsVal.negInf
  | JsVal.fin a, JsVal.fin b => JsVal.fin (a + b)

/-- JS binary `-` on numbers. -/
def subV : JsVal → JsVal → JsVal
  | JsVal.nan, _ => JsVal.nan
  | JsVal.undef, _ => JsVal.nan
  | _, JsVal.nan => JsVal.nan
  | _, JsVal.undef => JsVal.nan
  | JsVal.posInf, JsVal.posInf => JsVal.nan
  | JsVal.negInf, JsVal.negInf => JsVal.nan
  | JsVal.posInf, _ => JsVal.posInf
  | JsVal.negInf, _ => JsVal.negInf
  | _, JsVal.posInf => JsVal.negInf
  | _, JsVal.negInf => JsVal.posInf
  | JsVal.fin a, JsVal.fin b => JsVal.fin (a - b)

/-- JS binary `*` on numbers (`Infinity * 0` is `NaN`). -/
def mulV : JsVal → JsVal → JsVal
  | JsVal.nan, _ => JsVal.nan
  | JsVal.undef, _ => JsVal.nan
  | _, JsVal.nan => JsVal.nan
  | _, JsVal.undef => JsVal.nan
  | JsVal.posInf, JsVal.posInf => JsVal.posInf
  | JsVal.posInf, JsVal.negInf => JsVal.negInf
  | JsVal.negInf, JsVal.posInf => JsVal.negInf
  | JsVal.negInf, JsVal.negInf => JsVal.posInf
  | JsVal.posInf, JsVal.fin b =>
      if b = 0 then JsVal.nan else if 0 < b then JsVal.posInf else JsVal.negInf
  | JsVal.fin a, JsVal.posInf =>
      if a = 0 then JsVal.nan else if 0 < a then JsVal.posInf else JsVal.negInf
  | JsVal.negInf, JsVal.fin b =>
      if b = 0 then JsVal.nan else if 0 < b then JsVal.negInf else JsVal.posInf
  | JsVal.fin a, JsVal.negInf =>
      if a = 0 then JsVal.nan else if 0 < a then JsVal.negInf else JsVal.posInf
  | JsVal.fin a, JsVal.fin b => JsVal.fin (a * b)

/-- JS binary `/` on numbers: division by zero yields a signed infinity,
`0/0` yields `NaN` (`-0` is not modelled, so the sign of a zero divisor is
always taken positive). -/
def divV : JsVal → JsVal → JsVal
  | JsVal.nan, _ => JsVal.nan
  | JsVal.undef, _ => JsVal.nan
  | _, JsVal.nan => JsVal.nan
  | _, JsVal.undef => JsVal.nan
  | JsVal.posInf, JsVal.posInf => JsVal.nan
  | JsVal.posInf, JsVal.negInf => JsVal.nan
  | JsVal.negInf, JsVal.posInf => JsVal.nan
  | JsVal.negInf, JsVal.negInf => JsVal.nan
  | JsVal.posInf, JsVal.fin b => if 0 ≤ b then JsVal.posInf else JsVal.negInf
  | JsVal.negInf, JsVal.fin b => if 0 ≤ b then JsVal.negInf else JsVal.posInf
  | JsVal.fin _, JsVal.posInf => JsVal.fin 0
  | JsVal.fin _, JsVal.negInf => JsVal.fin 0
  | JsVal.fin a, JsVal.fin b =>
      if b = 0 then
        (if a = 0 then JsVal.nan else if 0 < a then JsVal.posInf else JsVal.negInf)
      else JsVal.fin (a / b)

/-- The exact rational value of the IEEE-754 double nearest π (the value
of `Math.PI`). -/
def mathPI : ℚ := 884279719003555 / 281474976710656

/-- The exact rational value of the IEEE-754 double nearest Euler's
number (the value of `Math.E`). -/
def mathE : ℚ := 6121026514868073 / 2251799813685248

/-- Is `q` an odd integer (used by the `Math.pow` special cases for a
negative-infinite base)? -/
def oddInt (q : ℚ) : Bool := q.den = 1 && q.num % 2 ≠ 0

/-- Model of `Math.pow` following the ECMAScript `Number::exponentiate`
special cases.  Exact for finite bases with integral exponents (IEEE is
exact there for the magnitudes exercised in this file).  A positive
finite base with a fractional exponent yields an irrational double in
general; that value is untracked by this exact model and mapped to
`nan` — no theorem below exercises it. -/
def jsPow (a b : JsVal) : JsVal :=
  match b with
  | JsVal.undef => JsVal.nan
  | JsVal.nan => JsVal.nan
  | JsVal.posInf =>
    match a with
    | JsVal.fin p =>
        if p = 1 ∨ p = -1 then JsVal.nan
        else if 1 < p ∨ p < -1 then JsVal.posInf else JsVal.fin 0
    | JsVal.posInf => JsVal.posInf
    | JsVal.negInf => JsVal.posInf
    | _ => JsVal.nan
  | JsVal.negInf =>
    match a with
    | JsVal.fin p =>
        if p = 1 ∨ p = -1 then JsVal.nan
        else if 1 < p ∨ p < -1 then JsVal.fin 0 else JsVal.posInf
    | JsVal.posInf => JsVal.fin 0
    | JsVal.negInf => JsVal.fin 0
    | _ => JsVal.nan
  | JsVal.fin q =>
    if q = 0 then JsVal.fin 1          -- x ** ±0 = 1, even for NaN base
    else
      match a with
      | JsVal.nan => JsVal.nan
      | JsVal.undef => JsVal.nan
      | JsVal.posInf => if 0 < q then JsVal.posInf else JsVal.fin 0
      | JsVal.negInf =>
          if 0 < q then (if oddInt q then JsVal.negInf else JsVal.posInf)
          else JsVal.fin 0
      | JsVal.fin p =>
          if q.den = 1 then
            if 0 ≤ q.num then JsVal.fin (p ^ q.num.toNat)
            else if p = 0 then JsVal.posInf      -- 0 ** negative = Infinity
            else JsVal.fin ((p ^ (-q.num).toNat)⁻¹)
          else
            if p < 0 then JsVal.nan              -- negative base, fractional exponent
            else if p = 0 then (if 0 < q then JsVal.fin 0 else JsVal.posInf)
            else if p = 1 then JsVal.fin 1
            else JsVal.nan                       -- irrational result: untracked

/-- Model of `Math.sqrt`: `NaN` on negative input, exact on perfect
squares of rationals (IEEE sqrt is correctly rounded, hence exact there);
irrational results are untracked (`nan`), and no theorem depends on
them. -/
def jsSqrt : JsVal → JsVal
  | JsVal.fin q =>
      if q < 0 then JsVal.nan
      else if Nat.sqrt q.num.toNat ^ 2 = q.num.toNat ∧ Nat.sqrt q.den ^ 2 = q.den then
        JsVal.fin ((Nat.sqrt q.num.toNat : ℚ) / (Nat.sqrt q.den : ℚ))
      else JsVal.nan
  | JsVal.posInf => JsVal.posInf
  | _ => JsVal.nan

/-- The transcendental `Math` functions return irrational doubles on the
inputs a calculator user supplies; such values are not representable in
this exact rational model and are left untracked (mapped to `nan`).
No theorem in this file depends on any value of this function. -/
def untrackedFn : JsVal → JsVal := fun _ => JsVal.nan

/-- The interface of the host `Math` library as used by `applyOperator`
(an external collaborator of `src/script.js`). -/
structure MathFns where
  pow : JsVal → JsVal → JsVal
  sin : JsVal → JsVal
  cos : JsVal → JsVal
  tan : JsVal → JsVal
  asin : JsVal → JsVal
  acos : JsVal → JsVal
  atan : JsVal → JsVal
  log10 : JsVal → JsVal
  log : JsVal → JsVal
  sqrt : JsVal → JsVal

/-- The concrete `Math` instance used for closed evaluations (see the
comments on `jsPow`, `jsSqrt` and `untrackedFn`). -/
def jsMath : MathFns :=
  { pow := jsPow
    sin := untrackedFn
    cos := untrackedFn
    tan := untrackedFn
    asin := untrackedFn
    acos := untrackedFn
    atan := untrackedFn
    log10 := untrackedFn
    log := untrackedFn
    sqrt := jsSqrt }

/-- The iterative loop of `factorial` (src/script.js lines 152–155):
`result = 1; for (let i = 2; i <= n; i++) result *= i`.  For `n ≥ 2` the
list `List.range' 2 (n-1)` is exactly `[2, …, n]`. -/
def factLoop (n : Nat) : Nat :=
  (List.range' 2 (n - 1)).foldl (fun a i => a * i) 1

/-- `factorial` (src/script.js lines 149–157).  The guard
`n < 0 || n % 1 !== 0` throws `'Invalid factorial'`; under JS semantics
it rejects `-Infinity` (negative) and `Infinity`/`NaN`/`undefined`
(whose `% 1` is `NaN`, and `NaN !== 0`), and accepts exactly the finite
non-negative integral values. -/
def factorial (n : JsVal) : Except String JsVal :=
  match n with
  | JsVal.fin q =>
      if q < 0 ∨ q.den ≠ 1 then Except.error "Invalid factorial"
      else if q = 0 then Except.ok (JsVal.fin 1)
      else Except.ok (JsVal.fin ((factLoop q.num.toNat : ℕ) : ℚ))
  | JsVal.negInf => Except.error "Invalid factorial"   -- -Infinity < 0
  | _ => Except.error "Invalid factorial"              -- Infinity/NaN/undefined: n % 1 is NaN

/-! ## Tokens -/

/-- An entry of the output queue: the JS code stores either a raw token
string or a number (`Math.PI` / `Math.E`, pushed when resolving the
constants `π` and `e` on line 72). -/
inductive QTok where
  | num : JsVal → QTok
  | str : String → QTok
deriving DecidableEq

/-- The digit-tail of the numeric-literal pattern `\d+\.?\d*`: digits,
then optionally a dot followed by digits. -/
def numTail : List Char → Bool
  | [] => true
  | '.' :: rest => rest.all (fun c => c.isDigit)
  | c :: rest => c.isDigit && numTail rest

/-- Does the string match the numeric-literal alternative `\d+\.?\d*` of
the tokenizer's regular expression?  On the alphabet of strings the
tokenizer can emit, this coincides with JS `!isNaN(token)`. -/
def isNumericLit (s : String) : Bool :=
  match s.toList with
  | [] => false
  | c :: rest => c.isDigit && numTail rest

/-- Numeric value of a digit list. -/
def digitsVal (cs : List Char) : Nat :=
  cs.foldl (fun a c => a * 10 + (c.toNat - 48)) 0

/-- `parseFloat` on a token matching `\d+\.?\d*` (idealised as exact). -/
def parseNumLit (s : String) : ℚ :=
  let p := s.toList.span (fun c => c.isDigit)
  let iv : ℚ := (digitsVal p.1 : ℕ)
  match p.2 with
  | '.' :: fr => iv + ((digitsVal fr : ℕ) : ℚ) / ((10 : ℚ) ^ fr.length)
  | _ => iv

/-- The function-name list (src/script.js line 64; repeated verbatim on
line 113). -/
def functions : List String :=
  ["sin", "cos", "tan", "asin", "acos", "atan", "log", "ln", "sqrt", "fact"]

/-- The `precedence` table (src/script.js line 63); `none` models a
lookup of a key absent from the object (JS `undefined`). -/
def precedence (t : String) : Option Nat :=
  if t = "+" ∨ t = "-" then some 1
  else if t = "*" ∨ t = "/" then some 2
  else if t = "^" then some 3
  else none

/-- Is this string one of the five binary-operator tokens? -/
def isOpStr (t : String) : Bool := (precedence t).isSome

/-! ## Tokenizer (src/script.js lines 100–103)

`expr.match(/(\d+\.?\d*|[\+\-\*\/\^\(\)]|sin|cos|tan|asin|acos|atan|log|ln|sqrt|fact|π|e|i)/g) || []`:
scan left to right; at each position take the first alternative that
matches; characters starting no match are skipped. -/

/-- The single-character alternatives `[\+\-\*\/\^\(\)]`. -/
def opChars : List Char := ['+', '-', '*', '/', '^', '(', ')']

/-- The keyword alternatives, in the order they appear in the regular
expression (earlier alternatives win at a given position). -/
def keywords : List String :=
  ["sin", "cos", "tan", "asin", "acos", "atan", "log", "ln", "sqrt", "fact", "π", "e", "i"]

/-- Lex one numeric literal `\d+\.?\d*` (caller guarantees the head is a
digit): returns the matched characters and the rest. -/
def numLex (cs : List Char) : List Char × List Char :=
  let p := cs.span (fun c => c.isDigit)
  match p.2 with
  | '.' :: r2 =>
      let pf := r2.span (fun c => c.isDigit)
      (p.1 ++ '.' :: pf.1, pf.2)
  | _ => (p.1, p.2)

/-- First keyword that is a prefix of `cs`, with the rest of the input. -/
def matchKeyword (cs : List Char) : Option (String × List Char) :=
  keywords.findSome? fun k =>
    if cs.take k.toList.length = k.toList then some (k, cs.drop k.toList.length)
    else none

/-- One scan step per fuel unit; every step consumes at least one
character, so fuel `length + 1` suffices. -/
def tokenizeAux : Nat → List Char → List String
  | 0, _ => []
  | _, [] => []
  | fuel + 1, c :: rest =>
    if c.isDigit then
      let p := numLex (c :: rest)
      String.mk p.1 :: tokenizeAux fuel p.2
    else if c ∈ opChars then
      String.mk [c] :: tokenizeAux fuel rest
    else
      match matchKeyword (c :: rest) with
      | some kr => kr.1 :: tokenizeAux fuel kr.2
      | none => tokenizeAux fuel rest

/-- `tokenize` (src/script.js lines 100–103). -/
def tokenize (expr : String) : List String :=
  tokenizeAux (expr.toList.length + 1) expr.toList

/-! ## Shunting-yard converter (src/script.js lines 62–98) -/

/-- The converter's state: the output queue and the operator stack.  The
operator stack's top is the head of the list (the JS array's last
element). -/
structure SY where
  queue : List QTok
  ops : List String
deriving DecidableEq

/-- The ternary on line 72:
`token === 'π' ? Math.PI : token === 'e' ? Math.E : token`. -/
def resolveConst (t : String) : QTok :=
  if t = "π" then QTok.num (JsVal.fin mathPI)
  else if t = "e" then QTok.num (JsVal.fin mathE)
  else QTok.str t

/-- The `while` loop of the `)` branch (lines 78–80): pop the operator
stack into the queue until a `(` is at the top (or the stack is empty).
Returns the popped tokens (in pop order) and the remaining stack. -/
def popUntilParen : List String → List QTok × List String
  | [] => ([], [])
  | t :: rest =>
      if t = "(" then ([], t :: rest)
      else
        let p := popUntilParen rest
        (QTok.str t :: p.1, p.2)

/-- The `while` loop of the operator branch (lines 86–88): pop while the
top of the stack has precedence ≥ `p`; a top with no precedence entry
(`(`, a function name) stops the loop because `undefined >= p` is
`false`. -/
def popGE (p : Nat) : List String → List String × List String
  | [] => ([], [])
  | t :: rest =>
    match precedence t with
    | some q =>
        if p ≤ q then
          let pr := popGE p rest
          (t :: pr.1, pr.2)
        else ([], t :: rest)
    | none => ([], t :: rest)

/-- One iteration of the `tokens.forEach` loop (lines 70–91).  In the `)`
branch, `operatorStack.pop()` on line 81 discards the `(` (a no-op on an
empty stack, since JS `pop` merely returns `undefined`); lines 82–84 pop
a function name if one is now on top.  A token reaching the final branch
with no precedence entry pops nothing (`undefined >= undefined` is
`false`) and is pushed. -/
def shuntStep (st : SY) (t : String) : SY :=
  if isNumericLit t ∨ t = "π" ∨ t = "e" ∨ t = "i" then
    ⟨st.queue ++ [resolveConst t], st.ops⟩
  else if t ∈ functions then
    ⟨st.queue, t :: st.ops⟩
  else if t = "(" then
    ⟨st.queue, t :: st.ops⟩
  else if t = ")" then
    let pr := popUntilParen st.ops
    match pr.2.tail with
    | f :: r2 =>
        if f ∈ functions then ⟨st.queue ++ pr.1 ++ [QTok.str f], r2⟩
        else ⟨st.queue ++ pr.1, f :: r2⟩
    | [] => ⟨st.queue ++ pr.1, []⟩
  else
    match precedence t with
    | some p =>
        let pr := popGE p st.ops
        ⟨st.queue ++ pr.1.map QTok.str, t :: pr.2⟩
    | none => ⟨st.queue, t :: st.ops⟩

/-- The whole `forEach` (lines 70–91) as a fold. -/
def shunt (ts : List String) (st : SY) : SY := ts.foldl shuntStep st

/-- Conversion to postfix: run the fold from empty state, then drain the
operator stack into the queue (lines 93–95). -/
def toPostfix (ts : List String) : List QTok :=
  let st := shunt ts ⟨[], []⟩
  st.queue ++ st.ops.map QTok.str

/-! ## Postfix evaluator (src/script.js lines 105–147) -/

/-- The evaluator's number test `!isNaN(token)` (line 108): for a stored
number, `isNaN` of its value; for a token string, the numeric-literal
test. -/
def tokIsNumeric : QTok → Bool
  | QTok.num v => !jsValIsNaN v
  | QTok.str s => isNumericLit s

/-- `parseFloat(token)` (line 109): a stored number parses back to
itself, a numeric-literal string to its value. -/
def tokValue : QTok → JsVal
  | QTok.num v => v
  | QTok.str s => JsVal.fin (parseNumLit s)

/-- The arity test on line 113: is the token one of the unary function
names? -/
def tokIsFunction : QTok → Bool
  | QTok.num _ => false
  | QTok.str s => decide (s ∈ functions)

/-- `stack.pop()`: popping an empty JS array returns `undefined`. -/
def jsPop (s : List JsVal) : JsVal × List JsVal :=
  match s with
  | [] => (JsVal.undef, [])
  | v :: rest => (v, rest)

/-- The angle-mode conversion `angle` (line 126):
`val => isRadian ? val : (val * Math.PI / 180)`. -/
def angle (isRadian : Bool) (v : JsVal) : JsVal :=
  if isRadian then v else divV (mulV v (JsVal.fin mathPI)) (JsVal.fin 180)

/-- The inverse conversion `invAngle` (line 127):
`val => isRadian ? val : (val * 180 / Math.PI)`. -/
def invAngle (isRadian : Bool) (v : JsVal) : JsVal :=
  if isRadian then v else divV (mulV v (JsVal.fin 180)) (JsVal.fin mathPI)

/-- `applyOperator` (src/script.js lines 125–147).  The ambient
angle-mode flag `isRadian` is passed explicitly; the `Math` library is
the parameter `M`.  The `default` branch throws `'Invalid operator'`;
`fact` may throw `'Invalid factorial'`. -/
def applyOperator (M : MathFns) (isRadian : Bool) (op : QTok) (a b : JsVal) :
    Except String JsVal :=
  match op with
  | QTok.str "+" => Except.ok (addV a b)
  | QTok.str "-" => Except.ok (subV a b)
  | QTok.str "*" => Except.ok (mulV a b)
  | QTok.str "/" => Except.ok (divV a b)
  | QTok.str "^" => Except.ok (M.pow a b)
  | QTok.str "sin" => Except.ok (M.sin (angle isRadian a))
  | QTok.str "cos" => Except.ok (M.cos (angle isRadian a))
  | QTok.str "tan" => Except.ok (M.tan (angle isRadian a))
  | QTok.str "asin" => Except.ok (invAngle isRadian (M.asin a))
  | QTok.str "acos" => Except.ok (invAngle isRadian (M.acos a))
  | QTok.str "atan" => Except.ok (invAngle isRadian (M.atan a))
  | QTok.str "log" => Except.ok (M.log10 a)
  | QTok.str "ln" => Except.ok (M.log a)
  | QTok.str "sqrt" => Except.ok (M.sqrt a)
  | QTok.str "fact" => factorial a
  | _ => Except.error "Invalid operator"

/-- The `postfix.forEach` loop of `evaluatePostfix` (lines 107–121) with
the value stack explicit (head = top, i.e. the JS array's last element).
A thrown error aborts the remaining iterations. -/
def runStack (M : MathFns) (isRadian : Bool) : List QTok → List JsVal →
    Except String (List JsVal)
  | [], s => Except.ok s
  | t :: ts, s =>
    if tokIsNumeric t then runStack M isRadian ts (tokValue t :: s)
    else
      let bp := jsPop s
      let ap := if tokIsFunction t then (bp.1, bp.2) else jsPop bp.2
      match applyOperator M isRadian t ap.1 bp.1 with
      | Except.ok v => runStack M isRadian ts (v :: ap.2)
      | Except.error e => Except.error e

/-- `evaluatePostfix` (lines 105–123): run the loop, then return
`stack[0]` — the **bottom** of the stack (the JS array's first element),
which is `undefined` when the stack is empty. -/
def evaluatePostfix (M : MathFns) (isRadian : Bool) (p : List QTok) :
    Except String JsVal :=
  match runStack M isRadian p [] with
  | Except.ok s => Except.ok ((s.getLast?).getD JsVal.undef)
  | Except.error e => Except.error e

/-- `parseAndEvaluate` (lines 62–98): tokenize, convert, evaluate. -/
def parseAndEvaluate (M : MathFns) (isRadian : Bool) (expr : String) :
    Except String JsVal :=
  evaluatePostfix M isRadian (toPostfix (tokenize expr))

/-! ## Verification infrastructure (not part of the source) -/

/-- Is the queue token one of the five binary-operator strings? -/
def isOpTok : QTok → Bool
  | QTok.num _ => false
  | QTok.str s => isOpStr s

/-- Stack-height simulation of the evaluator: numeric tokens push one
value, unary function tokens require one operand and keep the height,
binary-operator tokens require two operands and lower the height by one;
`none` records that a token would pop more operands than the stack holds
(i.e. pop an empty array) or is unrecognized.  Thus
`heightRun p 0 = some 1` says precisely that evaluating `p` from an empty
stack never pops an empty stack and finishes with exactly one value. -/
def heightRun : List QTok → Nat → Option Nat
  | [], h => some h
  | t :: ts, h =>
    if tokIsNumeric t then heightRun ts (h + 1)
    else if tokIsFunction t then (if 1 ≤ h then heightRun ts h else none)
    else if isOpTok t then (if 2 ≤ h then heightRun ts (h - 1) else none)
    else none

/-- Number of binary-operator entries on an operator stack. -/
def opCount (s : List String) : Nat := (s.filter (fun t => isOpStr t)).length

/-- Shape of the part of the operator stack that a subexpression never
touches: empty, or guarded by a `(` on top. -/
def Barrier (B : List String) : Prop := B = [] ∨ ∃ B2, B = "(" :: B2

/-- The five binary-operator tokens. -/
inductive BinOp where
  | add | sub | mul | div | pow

/-- The token string of a binary operator. -/
def BinOp.tok : BinOp → String
  | BinOp.add => "+"
  | BinOp.sub => "-"
  | BinOp.mul => "*"
  | BinOp.div => "/"
  | BinOp.pow => "^"

/-- The ten unary function names. -/
inductive FnName where
  | sin | cos | tan | asin | acos | atan | log | ln | sqrt | fact

/-- The token string of a function name. -/
def FnName.tok : FnName → String
  | FnName.sin => "sin"
  | FnName.cos => "cos"
  | FnName.tan => "tan"
  | FnName.asin => "asin"
  | FnName.acos => "acos"
  | FnName.atan => "atan"
  | FnName.log => "log"
  | FnName.ln => "ln"
  | FnName.sqrt => "sqrt"
  | FnName.fact => "fact"

/-- Well-formed expressions, as described by the claim: balanced
parentheses, every binary operator flanked by two operands, every
function applied to a parenthesized operand; atoms are numeric literals
and the resolvable constants `π` and `e`. -/
inductive WFE where
  | num (s : String) (h : isNumericLit s = true)
  | piConst
  | eConst
  | bin (o : BinOp) (l r : WFE)
  | fn (f : FnName) (arg : WFE)
  | paren (inner : WFE)

/-- The token sequence of a well-formed expression. -/
def embed : WFE → List String
  | WFE.num s _ => [s]
  | WFE.piConst => ["π"]
  | WFE.eConst => ["e"]
  | WFE.bin o l r => embed l ++ BinOp.tok o :: embed r
  | WFE.fn f arg => FnName.tok f :: "(" :: (embed arg ++ [")"])
  | WFE.paren inner => "(" :: (embed inner ++ [")"])

/-! ## Basic lemmas -/

theorem shunt_nil (st : SY) : shunt [] st = st := rfl

theorem shunt_cons (t : String) (ts : List String) (st : SY) :
    shunt (t :: ts) st = shunt ts (shuntStep st t) := rfl

theorem shunt_append (a b : List String) (st : SY) :
    shunt (a ++ b) st = shunt b (shunt a st) := by
  unfold shunt
  exact List.foldl_append _ _ _ _

theorem shunt_snoc (ts : List String) (t : String) (st : SY) :
    shunt (ts ++ [t]) st = shuntStep (shunt ts st) t := by
  rw [shunt_append]; rfl

theorem heightRun_append (p q : List QTok) (h : Nat) :
    heightRun (p ++ q) h = (heightRun p h).bind (fun m => heightRun q m) := by
  induction p generalizing h with
  | nil => simp [heightRun]
  | cons t ts ih =>
    by_cases h1 : tokIsNumeric t
    · simp [heightRun, h1, ih]
    · by_cases h2 : tokIsFunction t
      · by_cases h3 : 1 ≤ h
        · simp [heightRun, h1, h2, h3, ih]
        · simp [heightRun, h1, h2, h3]
      · by_cases h4 : isOpTok t
        · by_cases h5 : 2 ≤ h
          · simp [heightRun, h1, h2, h4, h5, ih]
          · simp [heightRun, h1, h2, h4, h5]
        · simp [heightRun, h1, h2, h4]

theorem isOpStr_cases {t : String} (h : isOpStr t = true) :
    t = "+" ∨ t = "-" ∨ t = "*" ∨ t = "/" ∨ t = "^" := by
  unfold isOpStr precedence at h
  split_ifs at h with h1 h2 h3
  · rcases h1 with h1 | h1 <;> simp [h1]
  · rcases h2 with h2 | h2 <;> simp [h2]
  · simp [h3]
  · simp at h

theorem opStr_facts {t : String} (h : isOpStr t = true) :
    isNumericLit t = false ∧ t ≠ "π" ∧ t ≠ "e" ∧ t ≠ "i" ∧ t ∉ functions ∧
      t ≠ "(" ∧ t ≠ ")" ∧ tokIsFunction (QTok.str t) = false ∧
      tokIsNumeric (QTok.str t) = false ∧ isOpTok (QTok.str t) = true := by
  rcases isOpStr_cases h with rfl | rfl | rfl | rfl | rfl <;> decide

theorem fnTok_facts (f : FnName) :
    isNumericLit f.tok = false ∧ f.tok ≠ "π" ∧ f.tok ≠ "e" ∧ f.tok ≠ "i" ∧
      f.tok ∈ functions ∧ isOpStr f.tok = false ∧
      tokIsFunction (QTok.str f.tok) = true ∧
      tokIsNumeric (QTok.str f.tok) = false := by
  cases f <;> decide

theorem binTok_isOp (o : BinOp) : isOpStr o.tok = true := by
  cases o <;> decide

theorem opCount_append (a b : List String) :
    opCount (a ++ b) = opCount a + opCount b := by
  simp [opCount, List.filter_append]

theorem opCount_allOps :
    ∀ R : List String, (∀ o ∈ R, isOpStr o = true) → opCount R = R.length := by
  intro R hR
  unfold opCount
  rw [List.filter_eq_self.mpr hR]

theorem opCount_cons_nonOp {t : String} (h : isOpStr t = false) (s : List String) :
    opCount (t :: s) = opCount s := by
  simp [opCount, List.filter_cons, h]

theorem opCount_cons_op {t : String} (h : isOpStr t = true) (s : List String) :
    opCount (t :: s) = opCount s + 1 := by
  simp [opCount, List.filter_cons, h]

/-- The operator-branch pop loop on a stack whose top segment `R`
consists of operators and whose lower part `B` is a barrier: it pops some
prefix of `R` and never reaches into `B`. -/
theorem popGE_split (B : List String) (hB : Barrier B) (p : Nat) :
    ∀ R : List String, (∀ o ∈ R, isOpStr o = true) →
      ∃ n, n ≤ R.length ∧ popGE p (R ++ B) = (R.take n, R.drop n ++ B) := by
  intro R
  induction R with
  | nil =>
    intro _
    refine ⟨0, Nat.zero_le _, ?_⟩
    rcases hB with rfl | ⟨B2, rfl⟩
    · rfl
    · simp [popGE, precedence]
  | cons o R ih =>
    intro hR
    have ho : isOpStr o = true := hR o (List.mem_cons_self o R)
    obtain ⟨q, hq⟩ : ∃ q, precedence o = some q := Option.isSome_iff_exists.mp ho
    by_cases hpq : p ≤ q
    · obtain ⟨n, hn, hsplit⟩ := ih (fun x hx => hR x (List.mem_cons_of_mem o hx))
      refine ⟨n + 1, by simpa using hn, ?_⟩
      simp [popGE, hq, hpq, hsplit]
    · exact ⟨0, Nat.zero_le _, by simp [popGE, hq, hpq]⟩

/-- The `)`-branch pop loop on a stack made of a `(`-free segment over a
`(`: it pops exactly that segment and stops at the `(`. -/
theorem popUntilParen_barrier (rest : List String) :
    ∀ ops : List String, (∀ o ∈ ops, o ≠ "(") →
      popUntilParen (ops ++ "(" :: rest) = (ops.map QTok.str, "(" :: rest) := by
  intro ops
  induction ops with
  | nil => intro _; simp [popUntilParen]
  | cons o os ih =>
    intro h
    have ho := h o (List.mem_cons_self o os)
    simp [popUntilParen, ho, ih (fun x hx => h x (List.mem_cons_of_mem o hx))]

/-- The `)`-branch pop loop on a stack containing no `(` at all: it
empties the stack into the queue. -/
theorem popUntilParen_free :
    ∀ s : List String, (∀ o ∈ s, o ≠ "(") →
      popUntilParen s = (s.map QTok.str, []) := by
  intro s
  induction s with
  | nil => intro _; rfl
  | cons o os ih =>
    intro h
    have ho := h o (List.mem_cons_self o os)
    simp [popUntilParen, ho, ih (fun x hx => h x (List.mem_cons_of_mem o hx))]

/-- Draining a run of `j` binary operators from evaluation height
`h ≥ j + 1` succeeds and lands at height `h - j`. -/
theorem heightRun_opsDrain :
    ∀ ops : List String, (∀ o ∈ ops, isOpStr o = true) →
      ∀ h : Nat, ops.length + 1 ≤ h →
        heightRun (ops.map QTok.str) h = some (h - ops.length) := by
  intro ops
  induction ops with
  | nil => intro _ h _; simp [heightRun]
  | cons o os ih =>
    intro hops h hh
    have ho := hops o (List.mem_cons_self o os)
    obtain ⟨-, -, -, -, -, -, -, hfn, hnum, hop⟩ := opStr_facts ho
    have h2 : 2 ≤ h := by
      have := List.length_cons o os ▸ hh
      omega
    have ihh := ih (fun x hx => hops x (List.mem_cons_of_mem o hx)) (h - 1)
      (by simp at hh; omega)
    simp only [List.map_cons, heightRun, hnum, hfn, hop, h2, if_true, if_false,
      Bool.false_eq_true, ite_false, ite_true]
    rw [ihh]
    congr 1
    simp
    omega

/-! ## How `shuntStep` treats each token class -/

theorem shuntStep_numeric {s : String} (hs : isNumericLit s = true) (st : SY) :
    shuntStep st s = ⟨st.queue ++ [QTok.str s], st.ops⟩ := by
  have hpi : s ≠ "π" := by
    intro h; rw [h] at hs; exact absurd hs (by decide)
  have he : s ≠ "e" := by
    intro h; rw [h] at hs; exact absurd hs (by decide)
  unfold shuntStep
  rw [if_pos (Or.inl hs)]
  unfold resolveConst
  rw [if_neg hpi, if_neg he]

theorem shuntStep_pi (st : SY) :
    shuntStep st "π" = ⟨st.queue ++ [QTok.num (JsVal.fin mathPI)], st.ops⟩ := rfl

theorem shuntStep_e (st : SY) :
    shuntStep st "e" = ⟨st.queue ++ [QTok.num (JsVal.fin mathE)], st.ops⟩ := rfl

theorem shuntStep_fn (f : FnName) (st : SY) :
    shuntStep st f.tok = ⟨st.queue, f.tok :: st.ops⟩ := by
  cases f <;> rfl

theorem shuntStep_lparen (st : SY) :
    shuntStep st "(" = ⟨st.queue, "(" :: st.ops⟩ := rfl

theorem shuntStep_op {t : String} {p : Nat} (hp : precedence t = some p) (st : SY) :
    shuntStep st t =
      ⟨st.queue ++ (popGE p st.ops).1.map QTok.str, t :: (popGE p st.ops).2⟩ := by
  have hop : isOpStr t = true := by rw [isOpStr, hp]; rfl
  rcases isOpStr_cases hop with rfl | rfl | rfl | rfl | rfl <;>
    · obtain rfl : _ = p := Option.some.inj hp
      rfl

theorem shuntStep_resolve {t : String}
    (h : isNumericLit t ∨ t = "π" ∨ t = "e" ∨ t = "i") (st : SY) :
    shuntStep st t = ⟨st.queue ++ [resolveConst t], st.ops⟩ := by
  unfold shuntStep
  rw [if_pos h]

theorem shuntStep_fnPush {t : String}
    (h1 : ¬(isNumericLit t ∨ t = "π" ∨ t = "e" ∨ t = "i"))
    (h2 : t ∈ functions) (st : SY) :
    shuntStep st t = ⟨st.queue, t :: st.ops⟩ := by
  unfold shuntStep
  rw [if_neg h1, if_pos h2]

theorem shuntStep_other {t : String}
    (h1 : ¬(isNumericLit t ∨ t = "π" ∨ t = "e" ∨ t = "i"))
    (h2 : t ∉ functions) (h3 : t ≠ "(") (h4 : t ≠ ")") (st : SY) :
    shuntStep st t =
      (match precedence t with
       | some p =>
           ⟨st.queue ++ (popGE p st.ops).1.map QTok.str, t :: (popGE p st.ops).2⟩
       | none => ⟨st.queue, t :: st.ops⟩) := by
  unfold shuntStep
  rw [if_neg h1, if_neg h2, if_neg h3, if_neg h4]

theorem shuntStep_rparen (st : SY) :
    shuntStep st ")" =
      (match (popUntilParen st.ops).2.tail with
       | f :: r2 =>
           if f ∈ functions then
             ⟨st.queue ++ (popUntilParen st.ops).1 ++ [QTok.str f], r2⟩
           else ⟨st.queue ++ (popUntilParen st.ops).1, f :: r2⟩
       | [] => ⟨st.queue ++ (popUntilParen st.ops).1, []⟩) := rfl

/-- Main converter invariant.  Processing the token sequence of a
well-formed expression from a state whose operator stack is a run `R` of
binary operators over a barrier `B`, and whose queue evaluates cleanly to
height `opCount (R ++ B)`, yields a state of the same shape whose queue
evaluates cleanly to one more than the operator count of the new stack.
The barrier `B` is never touched. -/
theorem shunt_wf :
    ∀ (E : WFE) (q : List QTok) (R B : List String),
      (∀ o ∈ R, isOpStr o = true) → Barrier B →
      heightRun q 0 = some (opCount (R ++ B)) →
      ∃ (q2 : List QTok) (R2 : List String),
        shunt (embed E) ⟨q, R ++ B⟩ = ⟨q2, R2 ++ B⟩ ∧
        (∀ o ∈ R2, isOpStr o = true) ∧
        heightRun q2 0 = some (opCount (R2 ++ B) + 1) := by
  intro E
  induction E with
  | num s hs =>
    intro q R B hR hB hq
    refine ⟨q ++ [QTok.str s], R, ?_, hR, ?_⟩
    · show shuntStep ⟨q, R ++ B⟩ s = _
      rw [shuntStep_numeric hs]
    · rw [heightRun_append, hq]
      simp [heightRun, tokIsNumeric, hs]
  | piConst =>
    intro q R B hR hB hq
    refine ⟨q ++ [QTok.num (JsVal.fin mathPI)], R, ?_, hR, ?_⟩
    · show shuntStep ⟨q, R ++ B⟩ "π" = _
      rw [shuntStep_pi]
    · rw [heightRun_append, hq]
      simp [heightRun, tokIsNumeric, jsValIsNaN]
  | eConst =>
    intro q R B hR hB hq
    refine ⟨q ++ [QTok.num (JsVal.fin mathE)], R, ?_, hR, ?_⟩
    · show shuntStep ⟨q, R ++ B⟩ "e" = _
      rw [shuntStep_e]
    · rw [heightRun_append, hq]
      simp [heightRun, tokIsNumeric, jsValIsNaN]
  | bin o l r ihl ihr =>
    intro q R B hR hB hq
    obtain ⟨q1, R1, hs1, hR1, hq1⟩ := ihl q R B hR hB hq
    obtain ⟨p, hp⟩ : ∃ p, precedence (BinOp.tok o) = some p :=
      Option.isSome_iff_exists.mp (binTok_isOp o)
    obtain ⟨n, hn, hpop⟩ := popGE_split B hB p R1 hR1
    have htake : ∀ x ∈ R1.take n, isOpStr x = true :=
      fun x hx => hR1 x (List.take_subset _ _ hx)
    have hdrop : ∀ x ∈ R1.drop n, isOpStr x = true :=
      fun x hx => hR1 x (List.drop_subset _ _ hx)
    have hR2 : ∀ x ∈ BinOp.tok o :: R1.drop n, isOpStr x = true := by
      intro x hx
      rcases List.mem_cons.mp hx with rfl | hx
      · exact binTok_isOp o
      · exact hdrop x hx
    have hq2 : heightRun (q1 ++ (R1.take n).map QTok.str) 0 =
        some (opCount ((BinOp.tok o :: R1.drop n) ++ B)) := by
      rw [heightRun_append, hq1, Option.some_bind]
      have hlen : (R1.take n).length = n := by
        rw [List.length_take]; omega
      have hbound : (R1.take n).length + 1 ≤ opCount (R1 ++ B) + 1 := by
        rw [hlen, opCount_append, opCount_allOps R1 hR1]; omega
      rw [heightRun_opsDrain _ htake _ hbound]
      congr 1
      rw [hlen, List.cons_append, opCount_cons_op (binTok_isOp o),
        opCount_append, opCount_append, opCount_allOps R1 hR1,
        opCount_allOps _ hdrop, List.length_drop]
      omega
    obtain ⟨q3, R3, hs3, hR3, hq3⟩ :=
      ihr (q1 ++ (R1.take n).map QTok.str) (BinOp.tok o :: R1.drop n) B hR2 hB hq2
    refine ⟨q3, R3, ?_, hR3, hq3⟩
    show shunt (embed l ++ BinOp.tok o :: embed r) ⟨q, R ++ B⟩ = _
    rw [shunt_append, hs1, shunt_cons, shuntStep_op hp]
    show shunt (embed r)
        ⟨q1 ++ (popGE p (R1 ++ B)).1.map QTok.str,
          BinOp.tok o :: (popGE p (R1 ++ B)).2⟩ = _
    rw [hpop]
    exact hs3
  | paren inner ih =>
    intro q R B hR hB hq
    have hqin : heightRun q 0 = some (opCount ([] ++ ("(" :: (R ++ B)))) := by
      rw [List.nil_append, opCount_cons_nonOp (by decide)]
      exact hq
    obtain ⟨q2, R2, hs2, hR2, hq2⟩ :=
      ih q [] ("(" :: (R ++ B)) (by intro x hx; cases hx) (Or.inr ⟨_, rfl⟩) hqin
    simp only [List.nil_append] at hs2
    have hfree : ∀ x ∈ R2, x ≠ "(" := fun x hx =>
      (opStr_facts (hR2 x hx)).2.2.2.2.2.1
    have hpop : popUntilParen (R2 ++ "(" :: (R ++ B)) =
        (R2.map QTok.str, "(" :: (R ++ B)) :=
      popUntilParen_barrier (R ++ B) R2 hfree
    have hheadfn : ∀ f rest, R ++ B = f :: rest → f ∉ functions := by
      intro f rest hEq
      rcases R with _ | ⟨r0, R'⟩
      · rcases hB with rfl | ⟨B2, rfl⟩
        · simp at hEq
        · rw [List.nil_append] at hEq
          obtain ⟨rfl, -⟩ := List.cons.inj hEq
          decide
      · rw [List.cons_append] at hEq
        obtain ⟨rfl, -⟩ := List.cons.inj hEq
        exact (opStr_facts (hR r0 (List.mem_cons_self r0 R'))).2.2.2.2.1
    have hstep : shuntStep ⟨q2, R2 ++ "(" :: (R ++ B)⟩ ")" =
        ⟨q2 ++ R2.map QTok.str, R ++ B⟩ := by
      rw [shuntStep_rparen]
      simp only [hpop, List.tail_cons]
      rcases hRB : R ++ B with _ | ⟨f, rest⟩
      · rfl
      · have hnf := hheadfn f rest hRB
        simp [hnf]
    have hq3 : heightRun (q2 ++ R2.map QTok.str) 0 =
        some (opCount (R ++ B) + 1) := by
      rw [heightRun_append, hq2, Option.some_bind]
      have hbound : R2.length + 1 ≤ opCount (R2 ++ "(" :: (R ++ B)) + 1 := by
        rw [opCount_append, opCount_allOps R2 hR2]; omega
      rw [heightRun_opsDrain R2 hR2 _ hbound]
      congr 1
      rw [opCount_append, opCount_allOps R2 hR2, opCount_cons_nonOp (by decide)]
      omega
    refine ⟨q2 ++ R2.map QTok.str, R, ?_, hR, hq3⟩
    show shunt ("(" :: (embed inner ++ [")"])) ⟨q, R ++ B⟩ = _
    rw [shunt_cons, shuntStep_lparen, shunt_snoc]
    show shuntStep (shunt (embed inner) ⟨q, "(" :: (R ++ B)⟩) ")" = _
    rw [hs2, hstep]
  | fn f arg ih =>
    intro q R B hR hB hq
    obtain ⟨hnl, hpi, hee, hii, hmem, hnop, htf, htn⟩ := fnTok_facts f
    have hqin : heightRun q 0 =
        some (opCount ([] ++ ("(" :: (FnName.tok f :: (R ++ B))))) := by
      rw [List.nil_append, opCount_cons_nonOp (by decide), opCount_cons_nonOp hnop]
      exact hq
    obtain ⟨q2, R2, hs2, hR2, hq2⟩ :=
      ih q [] ("(" :: (FnName.tok f :: (R ++ B))) (by intro x hx; cases hx)
        (Or.inr ⟨_, rfl⟩) hqin
    simp only [List.nil_append] at hs2
    have hfree : ∀ x ∈ R2, x ≠ "(" := fun x hx =>
      (opStr_facts (hR2 x hx)).2.2.2.2.2.1
    have hpop : popUntilParen (R2 ++ "(" :: (FnName.tok f :: (R ++ B))) =
        (R2.map QTok.str, "(" :: (FnName.tok f :: (R ++ B))) :=
      popUntilParen_barrier (FnName.tok f :: (R ++ B)) R2 hfree
    have hstep : shuntStep ⟨q2, R2 ++ "(" :: (FnName.tok f :: (R ++ B))⟩ ")" =
        ⟨q2 ++ R2.map QTok.str ++ [QTok.str (FnName.tok f)], R ++ B⟩ := by
      rw [shuntStep_rparen]
      simp only [hpop, List.tail_cons]
      simp [hmem]
    have hcount : opCount (R2 ++ "(" :: (FnName.tok f :: (R ++ B))) =
        R2.length + opCount (R ++ B) := by
      rw [opCount_append, opCount_allOps R2 hR2, opCount_cons_nonOp (by decide),
        opCount_cons_nonOp hnop]
    have hq3 : heightRun (q2 ++ R2.map QTok.str ++ [QTok.str (FnName.tok f)]) 0 =
        some (opCount (R ++ B) + 1) := by
      rw [heightRun_append, heightRun_append, hq2, Option.some_bind,
        heightRun_opsDrain R2 hR2 _ (by rw [hcount]; omega), Option.some_bind]
      have harith : opCount (R2 ++ "(" :: (FnName.tok f :: (R ++ B))) + 1 -
          R2.length = opCount (R ++ B) + 1 := by
        rw [hcount]; omega
      rw [harith]
      simp [heightRun, htn, htf]
    refine ⟨_, R, ?_, hR, hq3⟩
    show shunt (FnName.tok f :: "(" :: (embed arg ++ [")"])) ⟨q, R ++ B⟩ = _
    rw [shunt_cons, shuntStep_fn, shunt_cons, shuntStep_lparen, shunt_snoc]
    show shuntStep
        (shunt (embed arg) ⟨q, "(" :: (FnName.tok f :: (R ++ B))⟩) ")" = _
    rw [hs2, hstep]

/-- The postfix sequence produced for a well-formed expression passes
the height simulation from the empty stack and ends at height one: no
token ever pops an empty stack and exactly one value remains. -/
theorem heightRun_toPostfix (E : WFE) :
    heightRun (toPostfix (embed E)) 0 = some 1 := by
  obtain ⟨q2, R2, hs, hR2, hq2⟩ :=
    shunt_wf E [] [] [] (by intro x hx; cases hx) (Or.inl rfl)
      (by simp [heightRun, opCount])
  simp only [List.append_nil] at hs hq2
  unfold toPostfix
  rw [show shunt (embed E) ⟨[], []⟩ = ⟨q2, R2⟩ from hs]
  rw [heightRun_append, hq2, Option.some_bind]
  rw [heightRun_opsDrain R2 hR2 _ (by rw [opCount_allOps R2 hR2])]
  rw [opCount_allOps R2 hR2]
  congr 1
  omega

/-- The only error `factorial` can raise is `'Invalid factorial'`. -/
theorem factorial_error_msg (v : JsVal) (e : String)
    (h : factorial v = Except.error e) : e = "Invalid factorial" := by
  cases v
  all_goals simp only [factorial] at h
  case fin q =>
    split_ifs at h
    all_goals simp_all
  all_goals simp_all

/-- `applyOperator` on a unary function token either returns a value or
raises `'Invalid factorial'`. -/
theorem applyOperator_fn (M : MathFns) (rad : Bool) {s : String}
    (h : s ∈ functions) (a b : JsVal) :
    (∃ v, applyOperator M rad (QTok.str s) a b = Except.ok v) ∨
      applyOperator M rad (QTok.str s) a b = Except.error "Invalid factorial" := by
  simp only [functions, List.mem_cons, List.mem_singleton,
    List.not_mem_nil, or_false] at h
  rcases h with rfl | rfl | rfl | rfl | rfl | rfl | rfl | rfl | rfl | rfl
  · exact Or.inl ⟨_, rfl⟩
  · exact Or.inl ⟨_, rfl⟩
  · exact Or.inl ⟨_, rfl⟩
  · exact Or.inl ⟨_, rfl⟩
  · exact Or.inl ⟨_, rfl⟩
  · exact Or.inl ⟨_, rfl⟩
  · exact Or.inl ⟨_, rfl⟩
  · exact Or.inl ⟨_, rfl⟩
  · exact Or.inl ⟨_, rfl⟩
  · show (∃ v, factorial a = Except.ok v) ∨ factorial a = Except.error "Invalid factorial"
    rcases hf : factorial a with e | v
    · right
      rw [factorial_error_msg a e hf]
    · exact Or.inl ⟨v, rfl⟩

/-- `applyOperator` on a binary-operator token always returns a value. -/
theorem applyOperator_op (M : MathFns) (rad : Bool) {s : String}
    (h : isOpStr s = true) (a b : JsVal) :
    ∃ v, applyOperator M rad (QTok.str s) a b = Except.ok v := by
  rcases isOpStr_cases h with rfl | rfl | rfl | rfl | rfl
  · exact ⟨_, rfl⟩
  · exact ⟨_, rfl⟩
  · exact ⟨_, rfl⟩
  · exact ⟨_, rfl⟩
  · exact ⟨_, rfl⟩

/-- If the height simulation accepts a postfix sequence from a stack of
matching height, the evaluator loop runs it with no empty-stack pop and
either finishes with a stack of the predicted height or aborts with the
`'Invalid factorial'` domain error. -/
theorem runStack_total (M : MathFns) (rad : Bool) :
    ∀ (p : List QTok) (s : List JsVal) (n : Nat),
      heightRun p s.length = some n →
      (∃ s2, runStack M rad p s = Except.ok s2 ∧ s2.length = n) ∨
        runStack M rad p s = Except.error "Invalid factorial" := by
  intro p
  induction p with
  | nil =>
    intro s n h
    simp only [heightRun, Option.some.injEq] at h
    exact Or.inl ⟨s, rfl, h⟩
  | cons t ts ih =>
    intro s n h
    by_cases h1 : tokIsNumeric t = true
    · simp only [heightRun, h1, if_true] at h
      have := ih (tokValue t :: s) n (by simpa using h)
      simpa [runStack, h1] using this
    · by_cases h2 : tokIsFunction t = true
      · obtain ⟨f, rfl, hmem⟩ : ∃ f, t = QTok.str f ∧ f ∈ functions := by
          cases t with
          | num v => exact absurd h2 (by simp [tokIsFunction])
          | str f =>
            refine ⟨f, rfl, ?_⟩
            simpa [tokIsFunction] using h2
        cases s with
        | nil => simp [heightRun, h1, h2] at h
        | cons b rest =>
          have hlen : 1 ≤ (b :: rest).length := by simp
          simp only [heightRun, h1, h2, hlen, if_true, if_false,
            Bool.false_eq_true, ite_true, ite_false] at h
          rcases applyOperator_fn M rad hmem b b with ⟨v, hv⟩ | herr
          · have := ih (v :: rest) n (by simpa using h)
            simpa [runStack, h1, h2, jsPop, hv] using this
          · exact Or.inr (by simp [runStack, h1, h2, jsPop, herr])
      · by_cases h3 : isOpTok t = true
        · obtain ⟨o, rfl, hop⟩ : ∃ o, t = QTok.str o ∧ isOpStr o = true := by
            cases t with
            | num v => exact absurd h3 (by simp [isOpTok])
            | str o =>
              refine ⟨o, rfl, ?_⟩
              simpa [isOpTok] using h3
          cases s with
          | nil => simp [heightRun, h1, h2, h3] at h
          | cons b s1 =>
            cases s1 with
            | nil => simp [heightRun, h1, h2, h3] at h
            | cons a rest =>
              have hlen : 2 ≤ (b :: a :: rest).length := by simp
              simp only [heightRun, h1, h2, h3, hlen, if_true, if_false,
                Bool.false_eq_true, ite_true, ite_false] at h
              obtain ⟨v, hv⟩ := applyOperator_op M rad hop a b
              have := ih (v :: rest) n (by simpa using h)
              simpa [runStack, h1, h2, jsPop, hv] using this
        · simp [heightRun, h1, h2, h3] at h

/-- The constant resolution never emits the raw strings `π` or `e`. -/
theorem resolveConst_ne (t : String) :
    resolveConst t ≠ QTok.str "π" ∧ resolveConst t ≠ QTok.str "e" := by
  unfold resolveConst
  split_ifs with h1 h2
  · exact ⟨by simp, by simp⟩
  · exact ⟨by simp, by simp⟩
  · exact ⟨by simp [h1], by simp [h2]⟩

/-- Everything the `)`-loop emits or keeps comes from the input stack. -/
theorem popUntilParen_mem :
    ∀ s : List String,
      (∀ x ∈ (popUntilParen s).1, ∃ o ∈ s, x = QTok.str o) ∧
        ∀ o ∈ (popUntilParen s).2, o ∈ s := by
  intro s
  induction s with
  | nil =>
    exact ⟨fun x hx => absurd hx (List.not_mem_nil x),
      fun o ho => absurd ho (List.not_mem_nil o)⟩
  | cons t rest ih =>
    unfold popUntilParen
    split_ifs with h
    · exact ⟨fun x hx => absurd hx (List.not_mem_nil x), fun o ho => ho⟩
    · constructor
      · intro x hx
        rcases List.mem_cons.mp hx with rfl | hx
        · exact ⟨t, List.mem_cons_self t rest, rfl⟩
        · obtain ⟨o, ho, rfl⟩ := ih.1 x hx
          exact ⟨o, List.mem_cons_of_mem t ho, rfl⟩
      · intro o ho
        exact List.mem_cons_of_mem t (ih.2 o ho)

/-- Everything the operator-branch loop emits or keeps comes from the
input stack. -/
theorem popGE_mem (p : Nat) :
    ∀ s : List String,
      (∀ x ∈ (popGE p s).1, x ∈ s) ∧ ∀ o ∈ (popGE p s).2, o ∈ s := by
  intro s
  induction s with
  | nil =>
    exact ⟨fun x hx => absurd hx (List.not_mem_nil x),
      fun o ho => absurd ho (List.not_mem_nil o)⟩
  | cons t rest ih =>
    unfold popGE
    rcases hp : precedence t with _ | q
    · exact ⟨fun x hx => absurd hx (List.not_mem_nil x), fun o ho => ho⟩
    · by_cases hpq : p ≤ q
      · simp only [hpq, if_true]
        constructor
        · intro x hx
          rcases List.mem_cons.mp hx with rfl | hx
          · exact List.mem_cons_self _ _
          · exact List.mem_cons_of_mem t (ih.1 x hx)
        · intro o ho
          exact List.mem_cons_of_mem t (ih.2 o ho)
      · simp only [hpq, if_false]
        exact ⟨fun x hx => absurd hx (List.not_mem_nil x), fun o ho => ho⟩

/-- One converter step never puts the raw strings `π`/`e` into the queue
or onto the operator stack. -/
theorem shuntStep_no_const (st : SY) (t : String)
    (hq : ∀ x ∈ st.queue, x ≠ QTok.str "π" ∧ x ≠ QTok.str "e")
    (hs : ∀ o ∈ st.ops, o ≠ "π" ∧ o ≠ "e") :
    (∀ x ∈ (shuntStep st t).queue, x ≠ QTok.str "π" ∧ x ≠ QTok.str "e") ∧
      ∀ o ∈ (shuntStep st t).ops, o ≠ "π" ∧ o ≠ "e" := by
  have hpopU := popUntilParen_mem st.ops
  by_cases h1 : isNumericLit t ∨ t = "π" ∨ t = "e" ∨ t = "i"
  · -- numeric / constant: queue gains the resolved token
    rw [shuntStep_resolve h1 st]
    refine ⟨?_, hs⟩
    intro x hx
    rcases List.mem_append.mp hx with hx | hx
    · exact hq x hx
    · rw [List.mem_singleton.mp hx]
      exact resolveConst_ne t
  · by_cases h2 : t ∈ functions
    · -- function name: pushed on the stack; function names are not π/e
      rw [shuntStep_fnPush h1 h2 st]
      refine ⟨hq, ?_⟩
      intro o ho
      rcases List.mem_cons.mp ho with rfl | ho
      · constructor
        · intro hc; rw [hc] at h2; exact absurd h2 (by decide)
        · intro hc; rw [hc] at h2; exact absurd h2 (by decide)
      · exact hs o ho
    · by_cases h3 : t = "("
      · -- left parenthesis
        subst h3
        rw [shuntStep_lparen st]
        refine ⟨hq, ?_⟩
        intro o ho
        rcases List.mem_cons.mp ho with rfl | ho
        · exact ⟨by decide, by decide⟩
        · exact hs o ho
      · by_cases h4 : t = ")"
        · -- right parenthesis
          subst h4
          rw [shuntStep_rparen st]
          have hsub : ∀ o ∈ (popUntilParen st.ops).2.tail, o ∈ st.ops :=
            fun o ho => hpopU.2 o (List.tail_subset _ ho)
          have hemit : ∀ x ∈ (popUntilParen st.ops).1,
              x ≠ QTok.str "π" ∧ x ≠ QTok.str "e" := by
            intro x hx
            obtain ⟨o, ho, rfl⟩ := hpopU.1 x hx
            have h5 := hs o ho
            exact ⟨fun hc => h5.1 (QTok.str.inj hc),
              fun hc => h5.2 (QTok.str.inj hc)⟩
          rcases htl : (popUntilParen st.ops).2.tail with _ | ⟨f, r2⟩
          · refine ⟨?_, fun o ho => absurd ho (List.not_mem_nil o)⟩
            intro x hx
            rcases List.mem_append.mp hx with hx | hx
            · exact hq x hx
            · exact hemit x hx
          · rw [htl] at hsub
            by_cases hf : f ∈ functions
            · simp only [hf, if_true]
              constructor
              · intro x hx
                rcases List.mem_append.mp hx with hx | hx
                · rcases List.mem_append.mp hx with hx | hx
                  · exact hq x hx
                  · exact hemit x hx
                · rw [List.mem_singleton.mp hx]
                  have h5 := hs f (hsub f (List.mem_cons_self f r2))
                  exact ⟨fun hc => h5.1 (QTok.str.inj hc),
                    fun hc => h5.2 (QTok.str.inj hc)⟩
              · intro o ho
                exact hs o (hsub o (List.mem_cons_of_mem f ho))
            · simp only [hf, if_false]
              constructor
              · intro x hx
                rcases List.mem_append.mp hx with hx | hx
                · exact hq x hx
                · exact hemit x hx
              · intro o ho
                exact hs o (hsub o ho)
        · -- operator branch (or unrecognized token): the token itself is
          -- not π/e, or it would have been resolved in the first branch
          rw [shuntStep_other h1 h2 h3 h4 st]
          push_neg at h1
          obtain ⟨-, hpi, hee, -⟩ := h1
          have hmap : ∀ ops2 : List String,
              (∀ o ∈ ops2, o ∈ st.ops) →
              ∀ x ∈ ops2.map QTok.str, x ≠ QTok.str "π" ∧ x ≠ QTok.str "e" := by
            intro ops2 hops2 x hx
            obtain ⟨o, ho, rfl⟩ := List.mem_map.mp hx
            have h5 := hs o (hops2 o ho)
            exact ⟨fun hc => h5.1 (QTok.str.inj hc),
              fun hc => h5.2 (QTok.str.inj hc)⟩
          rcases hp : precedence t with _ | p
          · refine ⟨hq, ?_⟩
            intro o ho
            rcases List.mem_cons.mp ho with rfl | ho
            · exact ⟨hpi, hee⟩
            · exact hs o ho
          · constructor
            · intro x hx
              rcases List.mem_append.mp hx with hx | hx
              · exact hq x hx
              · exact hmap _ (popGE_mem p st.ops).1 x hx
            · intro o ho
              rcases List.mem_cons.mp ho with rfl | ho
              · exact ⟨hpi, hee⟩
              · exact hs o ((popGE_mem p st.ops).2 o ho)

/-- The converter never carries the raw strings `π`/`e` in its state. -/
theorem shunt_no_const (ts : List String) :
    ∀ st : SY,
      (∀ x ∈ st.queue, x ≠ QTok.str "π" ∧ x ≠ QTok.str "e") →
      (∀ o ∈ st.ops, o ≠ "π" ∧ o ≠ "e") →
      (∀ x ∈ (shunt ts st).queue, x ≠ QTok.str "π" ∧ x ≠ QTok.str "e") ∧
        ∀ o ∈ (shunt ts st).ops, o ≠ "π" ∧ o ≠ "e" := by
  induction ts with
  | nil => intro st hq hs; exact ⟨hq, hs⟩
  | cons t ts ih =>
    intro st hq hs
    rw [shunt_cons]
    obtain ⟨hq2, hs2⟩ := shuntStep_no_const st t hq hs
    exact ih _ hq2 hs2

/-- The loop product equals the factorial. -/
theorem factLoop_eq : ∀ n : Nat, factLoop n = Nat.factorial n := by
  intro n
  induction n with
  | zero => rfl
  | succ m ih =>
    cases m with
    | zero => rfl
    | succ k =>
      have h1 : factLoop (k + 2) = factLoop (k + 1) * (2 + k) := by
        unfold factLoop
        have h2 : k + 2 - 1 = (k + 1 - 1) + 1 := by omega
        rw [h2, List.range'_concat, List.foldl_append]
        simp [factLoop]
      rw [h1, ih, Nat.factorial_succ (k + 1)]
      ring

/-! ## Claim theorems -/

/-- C1 (counterexample): the claim says an operator applied with too few
operands raises a `StackUnderflow` error surfaced to the caller rather
than a numeric value being returned.  On the claim's own example, the
input `"+"` (postfix sequence `["+"]`), the code raises nothing: the
empty-stack pops return `undefined`, `undefined + undefined` is `NaN`,
and the evaluation completes normally with the numeric value `NaN`. -/
theorem c1_cex :
    parseAndEvaluate jsMath true "+" = Except.ok JsVal.nan ∧
      evaluatePostfix jsMath true [QTok.str "+"] = Except.ok JsVal.nan :=
  ⟨rfl, rfl⟩

/-- C1 (amended): for every arithmetic operator token applied to an empty
stack, the evaluator pops `undefined`, the operation yields `NaN`, and
evaluation completes normally with `NaN` — no error is raised and no
`StackUnderflow` condition exists in the code. -/
theorem c1_amended (op : String) (h : op ∈ ["+", "-", "*", "/", "^"]) :
    evaluatePostfix jsMath true [QTok.str op] = Except.ok JsVal.nan := by
  simp only [List.mem_cons, List.mem_singleton, List.not_mem_nil,
    or_false] at h
  rcases h with rfl | rfl | rfl | rfl | rfl
  · rfl
  · rfl
  · rfl
  · rfl
  · rfl

/-- C1 (witness for the amended theorem at `op = "+"`). -/
theorem c1_witness :
    "+" ∈ ["+", "-", "*", "/", "^"] ∧
      evaluatePostfix jsMath true [QTok.str "+"] = Except.ok JsVal.nan :=
  ⟨by decide, c1_amended "+" (by decide)⟩

/-- C2 (counterexample): the claim says every constant token, including
`i`, is resolved to a numeric literal before the postfix sequence is
handed to the evaluator.  But the token `i` is pushed onto the output
queue as the unresolved string `'i'` (not a numeric literal), and
evaluating it raises `'Invalid operator'`. -/
theorem c2_cex :
    toPostfix (tokenize "i") = [QTok.str "i"] ∧
      parseAndEvaluate jsMath true "i" = Except.error "Invalid operator" :=
  ⟨rfl, rfl⟩

/-- C2 (amended): the constants `π` and `e` are resolved to the numeric
double values of π and Euler's number during conversion — the unresolved
strings `'π'`/`'e'` never appear in the output queue, for any token
sequence — but the constant `i` is passed through unresolved. -/
theorem c2_amended :
    (∀ ts : List String,
      QTok.str "π" ∉ toPostfix ts ∧ QTok.str "e" ∉ toPostfix ts) ∧
    toPostfix (tokenize "π") = [QTok.num (JsVal.fin mathPI)] ∧
    toPostfix (tokenize "e") = [QTok.num (JsVal.fin mathE)] ∧
    toPostfix (tokenize "i") = [QTok.str "i"] := by
  refine ⟨?_, rfl, rfl, rfl⟩
  intro ts
  obtain ⟨hq, hs⟩ := shunt_no_const ts ⟨[], []⟩
    (by intro x hx; cases hx) (by intro o ho; cases ho)
  unfold toPostfix
  constructor
  · intro hx
    rcases List.mem_append.mp hx with hx | hx
    · exact (hq _ hx).1 rfl
    · obtain ⟨o, ho, hoe⟩ := List.mem_map.mp hx
      exact (hs o ho).1 (QTok.str.inj hoe)
  · intro hx
    rcases List.mem_append.mp hx with hx | hx
    · exact (hq _ hx).2 rfl
    · obtain ⟨o, ho, hoe⟩ := List.mem_map.mp hx
      exact (hs o ho).2 (QTok.str.inj hoe)

/-- C3: the `>=` comparison in the operator branch makes every operator,
including `^`, group left-to-right: an incoming `^` pops a `^` already on
the stack, the postfix for `"2^3^2"` is `2 3 ^ 2 ^`, and evaluation
yields `(2^3)^2 = 64`, not `2^(3^2) = 512`. -/
theorem c3 :
    parseAndEvaluate jsMath true "2^3^2" = Except.ok (JsVal.fin 64) ∧
    parseAndEvaluate jsMath true "2^3^2" ≠ Except.ok (JsVal.fin 512) ∧
    toPostfix (tokenize "2^3^2") =
      [QTok.str "2", QTok.str "3", QTok.str "^", QTok.str "2", QTok.str "^"] ∧
    ∀ q : List QTok, shuntStep ⟨q, ["^"]⟩ "^" = ⟨q ++ [QTok.str "^"], ["^"]⟩ := by
  refine ⟨rfl, ?_, rfl, fun q => rfl⟩
  intro h
  have h64 : parseAndEvaluate jsMath true "2^3^2" =
      Except.ok (JsVal.fin 64) := rfl
  rw [h64] at h
  have h2 := JsVal.fin.inj (Except.ok.inj h)
  norm_num at h2

/-- C4 (counterexample): the claim says conversion followed by evaluation
of every well-formed token sequence returns the sole remaining stack
value.  The sequence `fact ( 2.5 )` — a function applied to a
parenthesized numeric operand, hence well-formed in the claim's sense —
evaluates to the error `'Invalid factorial'` instead of returning a
value. -/
theorem c4_cex :
    embed (WFE.fn FnName.fact (WFE.num "2.5" rfl)) = tokenize "fact(2.5)" ∧
      parseAndEvaluate jsMath true "fact(2.5)" =
        Except.error "Invalid factorial" :=
  ⟨rfl, by with_unfolding_all rfl⟩

/-- C4 (amended): for every well-formed token sequence, the postfix
output passes the stack-height simulation from the empty stack ending at
height one — so the evaluation never pops an empty stack and, unless the
`fact` domain error `'Invalid factorial'` aborts it, finishes with
exactly one value on the stack and returns that sole value. -/
theorem c4_amended (M : MathFns) (rad : Bool) (E : WFE) :
    heightRun (toPostfix (embed E)) 0 = some 1 ∧
      ((∃ v, runStack M rad (toPostfix (embed E)) [] = Except.ok [v] ∧
          evaluatePostfix M rad (toPostfix (embed E)) = Except.ok v) ∨
        evaluatePostfix M rad (toPostfix (embed E)) =
          Except.error "Invalid factorial") := by
  have hh := heightRun_toPostfix E
  refine ⟨hh, ?_⟩
  rcases runStack_total M rad (toPostfix (embed E)) [] 1 hh with
    ⟨s2, hrun, hlen⟩ | herr
  · left
    obtain ⟨v, rfl⟩ : ∃ v, s2 = [v] := by
      cases s2 with
      | nil => simp at hlen
      | cons a tl =>
        cases tl with
        | nil => exact ⟨a, rfl⟩
        | cons b tl2 => simp at hlen
    exact ⟨v, hrun, by simp [evaluatePostfix, hrun]⟩
  · right
    simp [evaluatePostfix, herr]

/-- C5: `fact` fails with the `'Invalid factorial'` error exactly on
negative or non-integral finite arguments, returns the factorial
(the iterative product from 2 up to `n`) on non-negative integral ones,
and the concrete evaluations behave as the claim states. -/
theorem c5 :
    (∀ q : ℚ,
      (factorial (JsVal.fin q) = Except.error "Invalid factorial" ↔
        q < 0 ∨ q.den ≠ 1) ∧
      (0 ≤ q → q.den = 1 →
        factorial (JsVal.fin q) =
          Except.ok (JsVal.fin ((Nat.factorial q.num.toNat : ℕ) : ℚ)))) ∧
    parseAndEvaluate jsMath true "fact(5)" = Except.ok (JsVal.fin 120) ∧
    parseAndEvaluate jsMath true "fact(0)" = Except.ok (JsVal.fin 1) ∧
    parseAndEvaluate jsMath true "fact(-1)" = Except.error "Invalid factorial" ∧
    parseAndEvaluate jsMath true "fact(2.5)" = Except.error "Invalid factorial" := by
  refine ⟨?_, rfl, rfl, rfl, by with_unfolding_all rfl⟩
  intro q
  constructor
  · constructor
    · intro h
      by_contra hc
      push_neg at hc
      obtain ⟨h0, hden⟩ := hc
      simp only [factorial] at h
      rw [if_neg (by push_neg; exact ⟨h0, hden⟩)] at h
      split_ifs at h
    · intro h
      simp only [factorial]
      rw [if_pos h]
  · intro h0 hden
    simp only [factorial]
    rw [if_neg (by push_neg; exact ⟨h0, hden⟩)]
    by_cases hq0 : q = 0
    · rw [if_pos hq0, hq0]
      norm_num [Nat.factorial]
    · rw [if_neg hq0, factLoop_eq]

/-- C5 (witness at `q = 5`: `fact(5) = 120`). -/
theorem c5_witness :
    (0 : ℚ) ≤ 5 ∧ (5 : ℚ).den = 1 ∧
      factorial (JsVal.fin 5) =
        Except.ok (JsVal.fin ((Nat.factorial (5 : ℚ).num.toNat : ℕ) : ℚ)) :=
  ⟨by norm_num, by decide, (c5.1 5).2 (by norm_num) (by decide)⟩

/-- C6: in Degree mode (`isRadian = false`) the direct trig functions
multiply the input by `π/180` (as `a * Math.PI / 180`) before the `Math`
call, the inverse trig functions call `Math` on the raw input and
multiply the result by `180/π` (as `r * 180 / Math.PI`); in Radian mode
both directions pass values through unchanged.  This holds for every
model `M` of the `Math` library and every argument. -/
theorem c6 (M : MathFns) (a b : JsVal) :
    (applyOperator M false (QTok.str "sin") a b =
      Except.ok (M.sin (divV (mulV a (JsVal.fin mathPI)) (JsVal.fin 180)))) ∧
    (applyOperator M false (QTok.str "cos") a b =
      Except.ok (M.cos (divV (mulV a (JsVal.fin mathPI)) (JsVal.fin 180)))) ∧
    (applyOperator M false (QTok.str "tan") a b =
      Except.ok (M.tan (divV (mulV a (JsVal.fin mathPI)) (JsVal.fin 180)))) ∧
    (applyOperator M false (QTok.str "asin") a b =
      Except.ok (divV (mulV (M.asin a) (JsVal.fin 180)) (JsVal.fin mathPI))) ∧
    (applyOperator M false (QTok.str "acos") a b =
      Except.ok (divV (mulV (M.acos a) (JsVal.fin 180)) (JsVal.fin mathPI))) ∧
    (applyOperator M false (QTok.str "atan") a b =
      Except.ok (divV (mulV (M.atan a) (JsVal.fin 180)) (JsVal.fin mathPI))) ∧
    (applyOperator M true (QTok.str "sin") a b = Except.ok (M.sin a)) ∧
    (applyOperator M true (QTok.str "cos") a b = Except.ok (M.cos a)) ∧
    (applyOperator M true (QTok.str "tan") a b = Except.ok (M.tan a)) ∧
    (applyOperator M true (QTok.str "asin") a b = Except.ok (M.asin a)) ∧
    (applyOperator M true (QTok.str "acos") a b = Except.ok (M.acos a)) ∧
    (applyOperator M true (QTok.str "atan") a b = Except.ok (M.atan a)) :=
  ⟨rfl, rfl, rfl, rfl, rfl, rfl, rfl, rfl, rfl, rfl, rfl, rfl⟩

/-- C7: a `)` with no matching `(` raises nothing: it silently pops the
whole operator stack into the queue (for any `(`-free stack) and
conversion continues; concretely, `"2+3)*4"` converts to the postfix
sequence `2 3 + 4 *` and evaluates to `20` with no detected failure. -/
theorem c7 :
    (∀ (q : List QTok) (st : List String), "(" ∉ st →
      shuntStep ⟨q, st⟩ ")" = ⟨q ++ st.map QTok.str, []⟩) ∧
    toPostfix (tokenize "2+3)*4") =
      [QTok.str "2", QTok.str "3", QTok.str "+", QTok.str "4", QTok.str "*"] ∧
    parseAndEvaluate jsMath true "2+3)*4" = Except.ok (JsVal.fin 20) := by
  refine ⟨?_, rfl, by with_unfolding_all rfl⟩
  intro q st hst
  rw [shuntStep_rparen]
  rw [popUntilParen_free st (fun o ho => fun hc => hst (hc ▸ ho))]
  rfl

/-- C7 (witness for the `(`-free-stack hypothesis at `st = ["+"]`). -/
theorem c7_witness :
    "(" ∉ (["+"] : List String) ∧
      shuntStep ⟨[], ["+"]⟩ ")" = ⟨[QTok.str "+"], []⟩ :=
  ⟨by decide, c7.1 [] ["+"] (by decide)⟩

/-- C8: the pipeline honours precedence on the claim's concrete inputs:
`"12+3*4"` tokenizes to `12 + 3 * 4`, converts to postfix `12 3 4 * +`,
and evaluates to `24`; `evaluate("2+3*4") = 14` and
`evaluate("(2+3)*4") = 20`. -/
theorem c8 :
    tokenize "12+3*4" = ["12", "+", "3", "*", "4"] ∧
    toPostfix (tokenize "12+3*4") =
      [QTok.str "12", QTok.str "3", QTok.str "4", QTok.str "*", QTok.str "+"] ∧
    parseAndEvaluate jsMath true "12+3*4" = Except.ok (JsVal.fin 24) ∧
    parseAndEvaluate jsMath true "2+3*4" = Except.ok (JsVal.fin 14) ∧
    parseAndEvaluate jsMath true "(2+3)*4" = Except.ok (JsVal.fin 20) :=
  ⟨rfl, rfl, by with_unfolding_all rfl, by with_unfolding_all rfl,
    by with_unfolding_all rfl⟩

/-- C9: division by zero is not an error: `evaluate("5/0")` completes
normally with positive `Infinity` and `evaluate("0/0")` with `NaN`. -/
theorem c9 :
    parseAndEvaluate jsMath true "5/0" = Except.ok JsVal.posInf ∧
      parseAndEvaluate jsMath true "0/0" = Except.ok JsVal.nan :=
  ⟨rfl, rfl⟩

/-- C10: on any input with no recognizable token the tokenizer yields
`[]`, the converter yields the empty postfix sequence, and the evaluator
returns `stack[0]` of an empty stack — the `undefined` value — with no
error raised. -/
theorem c10 (M : MathFns) (rad : Bool) (s : String) (h : tokenize s = []) :
    toPostfix (tokenize s) = [] ∧
      parseAndEvaluate M rad s = Except.ok JsVal.undef := by
  unfold parseAndEvaluate
  rw [h]
  exact ⟨rfl, rfl⟩

/-- C10 (witness at the empty string). -/
theorem c10_witness :
    tokenize "" = [] ∧
      (toPostfix (tokenize "") = [] ∧
        parseAndEvaluate jsMath true "" = Except.ok JsVal.undef) :=
  ⟨rfl, c10 jsMath true "" rfl⟩

end SciCalc
